import Mathlib

/-!
Verification development for the EIGN repository: magnetic edge operators over
mixed directed/undirected graphs and the EIGN layer stack built on them.

A graph is an edge list `E : ℕ → ℕ × ℕ` (edge index `e` maps to the ordered
endpoint pair `(u, v)`, the listed orientation `u → v`), a directedness mask
`isDir : ℕ → Bool`, an edge count `M` and a node count `N`.  Edge signals are
row-aligned real matrices, embedded as functions `ℕ → ℕ → ℝ`.

The package module `eign` itself (functions `magnetic_incidence_matrix`,
`magnetic_edge_laplacian`, classes `MagneticEdgeLaplacianConv`,
`EIGNBlockMagneticEdgeLaplacianConv`, `EIGNLaplacianConv`) is imported but not
contained in the available sources (only the example notebooks that call it
are), so the definitions below are modelled from the specification, as their
doc comments state.
-/

namespace EIGN

open Finset

/-- Modelled from the spec: the complex phase factor attached to an edge.  A
directed edge carries `exp(i * 2 * pi * q)`; an undirected edge carries phase
`exp(0) = 1` (the phase term reduces to `1`). -/
noncomputable def phase (q : ℝ) (dir : Bool) : ℂ :=
  Complex.exp ((if dir then (2 * Real.pi * q : ℝ) else 0) * Complex.I)

/-- Modelled from the spec (section 4.1): the magnetic incidence matrix `B`,
entry at node `n` and edge `e = (u, v)`.  The endpoint `u` receives the phase
factor, the endpoint `v` receives the conjugate phase, multiplied by `-1` in
the signed variant and `+1` in the unsigned variant.  For undirected edges the
phase is `1`, recovering `+1` at `(u, e)` and `±1` at `(v, e)`.  The package
function `magnetic_incidence_matrix` is not part of the available sources. -/
noncomputable def magnetic_incidence_matrix (E : ℕ → ℕ × ℕ) (isDir : ℕ → Bool)
    (q : ℝ) (signed : Bool) (n e : ℕ) : ℂ :=
  (if n = (E e).1 then phase q (isDir e) else 0) +
    (if n = (E e).2 then (if signed then -1 else 1) * (starRingEnd ℂ) (phase q (isDir e))
      else 0)

/-- Modelled from the spec (section 4.1): the magnetic edge Laplacian variant
selected by `(signed_in, signed_out)`, computed as `B_out^H * B_in` from the
corresponding incidence matrices, summing over the `N` nodes.  The package
function `magnetic_edge_laplacian` is not part of the available sources. -/
noncomputable def magnetic_edge_laplacian (E : ℕ → ℕ × ℕ) (isDir : ℕ → Bool)
    (N : ℕ) (q : ℝ) (signed_in signed_out : Bool) (e f : ℕ) : ℂ :=
  ∑ n ∈ Finset.range N,
    (starRingEnd ℂ) (magnetic_incidence_matrix E isDir q signed_out n e) *
      magnetic_incidence_matrix E isDir q signed_in n f

theorem conj_phase_mul_phase (q : ℝ) (d : Bool) :
    (starRingEnd ℂ) (phase q d) * phase q d = 1 := by
  unfold phase
  rw [← Complex.exp_conj, ← Complex.exp_add]
  have h : (starRingEnd ℂ) ((((if d then (2 * Real.pi * q : ℝ) else 0) : ℝ) : ℂ) *
      Complex.I) = -((((if d then (2 * Real.pi * q : ℝ) else 0) : ℝ) : ℂ) * Complex.I) := by
    simp [map_mul, Complex.conj_I]
  rw [h, neg_add_cancel, Complex.exp_zero]

theorem phase_mul_conj_phase (q : ℝ) (d : Bool) :
    phase q d * (starRingEnd ℂ) (phase q d) = 1 := by
  rw [mul_comm]; exact conj_phase_mul_phase q d

theorem abs_phase (q : ℝ) (d : Bool) : Complex.abs (phase q d) = 1 := by
  unfold phase
  rw [Complex.abs_exp]
  simp

theorem phase_zero (d : Bool) : phase 0 d = 1 := by
  unfold phase
  have h : ((if d then (2 * Real.pi * 0 : ℝ) else 0) : ℝ) = 0 := by
    cases d <;> simp
  rw [h]
  simp

theorem magnetic_edge_laplacian_conj (E : ℕ → ℕ × ℕ) (isDir : ℕ → Bool) (N : ℕ)
    (q : ℝ) (s s' : Bool) (e f : ℕ) :
    (starRingEnd ℂ) (magnetic_edge_laplacian E isDir N q s s' e f) =
      magnetic_edge_laplacian E isDir N q s' s f e := by
  unfold magnetic_edge_laplacian
  rw [map_sum]
  refine Finset.sum_congr rfl fun n _ => ?_
  rw [map_mul, Complex.conj_conj]
  ring

theorem conj_sign_conj_phase_mul (q : ℝ) (d : Bool) (a b : Bool) :
    (starRingEnd ℂ) ((if a then (-1 : ℂ) else 1) * (starRingEnd ℂ) (phase q d)) *
      ((if b then (-1 : ℂ) else 1) * (starRingEnd ℂ) (phase q d)) =
      (if a then (-1 : ℂ) else 1) * (if b then (-1 : ℂ) else 1) := by
  rw [map_mul, Complex.conj_conj]
  have h1 : (starRingEnd ℂ) (if a then (-1 : ℂ) else 1) =
      (if a then (-1 : ℂ) else 1) := by
    cases a <;> simp
  rw [h1]
  calc (if a then (-1 : ℂ) else 1) * phase q d *
        ((if b then (-1 : ℂ) else 1) * (starRingEnd ℂ) (phase q d))
      = (if a then (-1 : ℂ) else 1) * (if b then (-1 : ℂ) else 1) *
        (phase q d * (starRingEnd ℂ) (phase q d)) := by ring
    _ = _ := by rw [phase_mul_conj_phase, mul_one]

theorem magnetic_edge_laplacian_diag (E : ℕ → ℕ × ℕ) (isDir : ℕ → Bool) (N : ℕ)
    (q : ℝ) (sIn sOut : Bool) (e : ℕ) (hu : (E e).1 < N) (hv : (E e).2 < N)
    (hne : (E e).1 ≠ (E e).2) :
    magnetic_edge_laplacian E isDir N q sIn sOut e e =
      if sIn = sOut then 2 else 0 := by
  have key : ∀ n, (starRingEnd ℂ) (magnetic_incidence_matrix E isDir q sOut n e) *
      magnetic_incidence_matrix E isDir q sIn n e =
      (if n = (E e).1 then 1 else 0) +
        (if n = (E e).2 then ((if sOut then -1 else 1) * (if sIn then -1 else 1) : ℂ)
          else 0) := by
    intro n
    unfold magnetic_incidence_matrix
    by_cases h1 : n = (E e).1
    · subst h1
      have h2 : ((E e).1 = (E e).2) = False := eq_false hne
      simp only [eq_self_iff_true, if_true, h2, if_false, add_zero]
      exact conj_phase_mul_phase q (isDir e)
    · by_cases h2 : n = (E e).2
      · subst h2
        have h1' : ((E e).2 = (E e).1) = False := eq_false fun h => hne h.symm
        simp only [h1', if_false, eq_self_iff_true, if_true, zero_add]
        exact conj_sign_conj_phase_mul q (isDir e) sOut sIn
      · simp [h1, h2]
  unfold magnetic_edge_laplacian
  rw [Finset.sum_congr rfl fun n _ => key n, Finset.sum_add_distrib,
    Finset.sum_ite_eq' (Finset.range N) ((E e).1) (fun _ => (1 : ℂ)),
    Finset.sum_ite_eq' (Finset.range N) ((E e).2)
      (fun _ => ((if sOut then -1 else 1) * (if sIn then -1 else 1) : ℂ))]
  rw [if_pos (Finset.mem_range.mpr hu), if_pos (Finset.mem_range.mpr hv)]
  cases sIn <;> cases sOut <;> norm_num

/-- Modelled from the spec: the classical real signed incidence matrix of the
underlying undirected graph, `+1` at the first listed endpoint and `-1` at the
second. -/
noncomputable def classical_incidence (E : ℕ → ℕ × ℕ) (n e : ℕ) : ℝ :=
  (if n = (E e).1 then 1 else 0) + (if n = (E e).2 then -1 else 0)

/-- Modelled from the spec: the classical real edge Laplacian on the line graph
of the graph, `B^T * B` for the classical signed incidence matrix `B`. -/
noncomputable def classical_edge_laplacian (E : ℕ → ℕ × ℕ) (N : ℕ) (e f : ℕ) : ℝ :=
  ∑ n ∈ Finset.range N, classical_incidence E n e * classical_incidence E n f

theorem magnetic_incidence_matrix_q_zero (E : ℕ → ℕ × ℕ) (isDir : ℕ → Bool)
    (s : Bool) (n e : ℕ) :
    magnetic_incidence_matrix E isDir 0 s n e =
      (((if n = (E e).1 then 1 else 0) +
        (if n = (E e).2 then (if s then -1 else 1) else 0) : ℝ) : ℂ) := by
  unfold magnetic_incidence_matrix
  rw [phase_zero]
  simp [apply_ite (fun x : ℝ => (x : ℂ))]

theorem magnetic_incidence_matrix_q_zero_im (E : ℕ → ℕ × ℕ) (isDir : ℕ → Bool)
    (s : Bool) (n e : ℕ) :
    (magnetic_incidence_matrix E isDir 0 s n e).im = 0 := by
  rw [magnetic_incidence_matrix_q_zero]
  exact Complex.ofReal_im _

theorem magnetic_edge_laplacian_q_zero_im (E : ℕ → ℕ × ℕ) (isDir : ℕ → Bool)
    (N : ℕ) (s s' : Bool) (e f : ℕ) :
    (magnetic_edge_laplacian E isDir N 0 s s' e f).im = 0 := by
  unfold magnetic_edge_laplacian
  rw [Complex.im_sum]
  refine Finset.sum_eq_zero fun n _ => ?_
  rw [magnetic_incidence_matrix_q_zero, magnetic_incidence_matrix_q_zero,
    Complex.conj_ofReal, ← Complex.ofReal_mul]
  exact Complex.ofReal_im _

theorem magnetic_edge_laplacian_q_zero_signed (E : ℕ → ℕ × ℕ) (isDir : ℕ → Bool)
    (N : ℕ) (e f : ℕ) :
    magnetic_edge_laplacian E isDir N 0 true true e f =
      ((classical_edge_laplacian E N e f : ℝ) : ℂ) := by
  unfold magnetic_edge_laplacian classical_edge_laplacian
  push_cast
  refine Finset.sum_congr rfl fun n _ => ?_
  rw [magnetic_incidence_matrix_q_zero, magnetic_incidence_matrix_q_zero]
  unfold classical_incidence
  push_cast
  simp

theorem abs_magnetic_incidence_matrix_le (E : ℕ → ℕ × ℕ) (isDir : ℕ → Bool)
    (q : ℝ) (s : Bool) (n e : ℕ) (hne : (E e).1 ≠ (E e).2) :
    Complex.abs (magnetic_incidence_matrix E isDir q s n e) ≤
      if n = (E e).1 ∨ n = (E e).2 then 1 else 0 := by
  unfold magnetic_incidence_matrix
  by_cases h1 : n = (E e).1
  · subst h1
    have h2 : ((E e).1 = (E e).2) = False := eq_false hne
    simp only [eq_self_iff_true, true_or, if_true, h2, if_false, add_zero]
    rw [abs_phase]
  · by_cases h2 : n = (E e).2
    · subst h2
      have h1' : ((E e).2 = (E e).1) = False := eq_false fun h => hne h.symm
      simp only [h1', if_false, eq_self_iff_true, or_true, if_true, zero_add]
      rw [map_mul, Complex.abs_conj, abs_phase, mul_one]
      cases s <;> simp
    · simp [h1, h2]

theorem abs_magnetic_edge_laplacian_le (E : ℕ → ℕ × ℕ) (isDir : ℕ → Bool) (N : ℕ)
    (q : ℝ) (sIn sOut : Bool) (e f : ℕ)
    (he : (E e).1 ≠ (E e).2) (hf : (E f).1 ≠ (E f).2)
    (hshare : (({(E e).1, (E e).2} : Finset ℕ) ∩ {(E f).1, (E f).2}).card ≤ 1) :
    Complex.abs (magnetic_edge_laplacian E isDir N q sIn sOut e f) ≤ 1 := by
  unfold magnetic_edge_laplacian
  calc Complex.abs (∑ n ∈ Finset.range N,
        (starRingEnd ℂ) (magnetic_incidence_matrix E isDir q sOut n e) *
          magnetic_incidence_matrix E isDir q sIn n f)
      ≤ ∑ n ∈ Finset.range N, Complex.abs
        ((starRingEnd ℂ) (magnetic_incidence_matrix E isDir q sOut n e) *
          magnetic_incidence_matrix E isDir q sIn n f) := Complex.abs.sum_le _ _
    _ ≤ ∑ n ∈ Finset.range N,
        (if n ∈ (({(E e).1, (E e).2} : Finset ℕ) ∩ {(E f).1, (E f).2}) then (1 : ℝ)
          else 0) := by
        refine Finset.sum_le_sum fun n _ => ?_
        rw [map_mul, Complex.abs_conj]
        have h1 := abs_magnetic_incidence_matrix_le E isDir q sOut n e he
        have h2 := abs_magnetic_incidence_matrix_le E isDir q sIn n f hf
        have hmul : Complex.abs (magnetic_incidence_matrix E isDir q sOut n e) *
            Complex.abs (magnetic_incidence_matrix E isDir q sIn n f) ≤
            (if n = (E e).1 ∨ n = (E e).2 then (1 : ℝ) else 0) *
              (if n = (E f).1 ∨ n = (E f).2 then (1 : ℝ) else 0) := by
          apply mul_le_mul h1 h2 (AbsoluteValue.nonneg _ _)
          split <;> norm_num
        refine hmul.trans ?_
        by_cases he' : n = (E e).1 ∨ n = (E e).2 <;>
          by_cases hf' : n = (E f).1 ∨ n = (E f).2 <;>
            simp [he', hf', Finset.mem_inter, Finset.mem_insert, Finset.mem_singleton]
    _ = ((Finset.range N) ∩
          (({(E e).1, (E e).2} : Finset ℕ) ∩ {(E f).1, (E f).2})).card := by
        rw [Finset.sum_ite_mem]
        simp
    _ ≤ ((({(E e).1, (E e).2} : Finset ℕ) ∩ {(E f).1, (E f).2})).card := by
        exact_mod_cast Finset.card_le_card Finset.inter_subset_right
    _ ≤ 1 := by exact_mod_cast hshare

/-- Orientation flip of the listed orientation of the edges selected by `S`:
the two rows of `edge_index` are swapped for those edges. -/
def flipEdges (S : ℕ → Bool) (E : ℕ → ℕ × ℕ) : ℕ → ℕ × ℕ :=
  fun e => if S e then ((E e).2, (E e).1) else E e

/-- Row sign vector of a flip: `-1` on flipped edges, `1` elsewhere. -/
noncomputable def sgn (S : ℕ → Bool) (e : ℕ) : ℝ :=
  if S e then -1 else 1

/-- Negate the rows selected by `S` of a real edge-signal matrix (the
re-expression of a signed edge signal in the flipped orientation basis). -/
noncomputable def negRows (S : ℕ → Bool) (x : ℕ → ℕ → ℝ) : ℕ → ℕ → ℝ :=
  fun e c => sgn S e * x e c

theorem sgn_mul_self (S : ℕ → Bool) (e : ℕ) : sgn S e * sgn S e = 1 := by
  unfold sgn
  split <;> norm_num

theorem negRows_negRows (S : ℕ → Bool) (x : ℕ → ℕ → ℝ) :
    negRows S (negRows S x) = x := by
  funext e c
  unfold negRows
  rw [← mul_assoc, sgn_mul_self, one_mul]

theorem phase_undirected (q : ℝ) : phase q false = 1 := by
  unfold phase
  simp

theorem magnetic_incidence_matrix_flip_signed (E : ℕ → ℕ × ℕ) (isDir : ℕ → Bool)
    (q : ℝ) (S : ℕ → Bool) (hS : ∀ e, S e = true → isDir e = false) (n e : ℕ) :
    magnetic_incidence_matrix (flipEdges S E) isDir q true n e =
      ((sgn S e : ℝ) : ℂ) * magnetic_incidence_matrix E isDir q true n e := by
  by_cases hSe : S e = true
  · have hd : isDir e = false := hS e hSe
    unfold magnetic_incidence_matrix flipEdges sgn
    rw [hd, phase_undirected]
    by_cases hn1 : n = (E e).1 <;> by_cases hn2 : n = (E e).2
    · have huv : (E e).1 = (E e).2 := hn1.symm.trans hn2
      simp [hSe, hn1, hn2, huv]
    · have huv : ¬ (E e).1 = (E e).2 := fun h => hn2 (hn1.trans h)
      simp [hSe, hn1, hn2, huv]
    · have hvu : ¬ (E e).2 = (E e).1 := fun h => hn1 (hn2.trans h)
      simp [hSe, hn1, hn2, hvu]
    · simp [hSe, hn1, hn2]
  · unfold magnetic_incidence_matrix flipEdges sgn
    simp [hSe]

theorem magnetic_incidence_matrix_flip_unsigned (E : ℕ → ℕ × ℕ) (isDir : ℕ → Bool)
    (q : ℝ) (S : ℕ → Bool) (hS : ∀ e, S e = true → isDir e = false) (n e : ℕ) :
    magnetic_incidence_matrix (flipEdges S E) isDir q false n e =
      magnetic_incidence_matrix E isDir q false n e := by
  by_cases hSe : S e = true
  · have hd : isDir e = false := hS e hSe
    unfold magnetic_incidence_matrix flipEdges
    rw [hd, phase_undirected]
    by_cases hn1 : n = (E e).1 <;> by_cases hn2 : n = (E e).2
    · have huv : (E e).1 = (E e).2 := hn1.symm.trans hn2
      simp [hSe, hn1, hn2, huv]
    · have huv : ¬ (E e).1 = (E e).2 := fun h => hn2 (hn1.trans h)
      simp [hSe, hn1, hn2, huv]
    · have hvu : ¬ (E e).2 = (E e).1 := fun h => hn1 (hn2.trans h)
      simp [hSe, hn1, hn2, hvu]
    · simp [hSe, hn1, hn2]
  · unfold magnetic_incidence_matrix flipEdges
    simp [hSe]

theorem magnetic_edge_laplacian_flip (E : ℕ → ℕ × ℕ) (isDir : ℕ → Bool) (N : ℕ)
    (q : ℝ) (S : ℕ → Bool) (hS : ∀ e, S e = true → isDir e = false)
    (sIn sOut : Bool) (e f : ℕ) :
    magnetic_edge_laplacian (flipEdges S E) isDir N q sIn sOut e f =
      (if sOut then ((sgn S e : ℝ) : ℂ) else 1) *
        (if sIn then ((sgn S f : ℝ) : ℂ) else 1) *
        magnetic_edge_laplacian E isDir N q sIn sOut e f := by
  unfold magnetic_edge_laplacian
  rw [Finset.mul_sum]
  refine Finset.sum_congr rfl fun n _ => ?_
  cases sIn <;> cases sOut <;>
    simp [magnetic_incidence_matrix_flip_signed E isDir q S hS,
      magnetic_incidence_matrix_flip_unsigned E isDir q S hS,
      map_mul, Complex.conj_ofReal] <;> ring

/-- Row-wise real linear feature transform `x * W` (no bias), summing over the
`Cin` input channels. -/
noncomputable def linmap (Cin : ℕ) (W : ℕ → ℕ → ℝ) (x : ℕ → ℕ → ℝ) : ℕ → ℕ → ℝ :=
  fun e c => ∑ i ∈ Finset.range Cin, x e i * W i c

/-- Pairing of adjacent feature columns of a real matrix into complex columns,
column `j` holding `x[:, 2j] + i * x[:, 2j+1]` (the semantics of the
`torch.view_as_complex` pairing used by the convolution). -/
noncomputable def view_as_complex (y : ℕ → ℕ → ℝ) : ℕ → ℕ → ℂ :=
  fun e j => ((y e (2 * j) : ℝ) : ℂ) + ((y e (2 * j + 1) : ℝ) : ℂ) * Complex.I

/-- Unpairing of complex columns back into a real matrix of twice the column
count (the semantics of `torch.view_as_real` followed by flattening). -/
noncomputable def view_as_real (z : ℕ → ℕ → ℂ) : ℕ → ℕ → ℝ :=
  fun e c => if c % 2 = 0 then (z e (c / 2)).re else (z e (c / 2)).im

/-- Application of an `M × M` edge operator to a complex edge-signal matrix. -/
noncomputable def opApply (M : ℕ) (L : ℕ → ℕ → ℂ) (z : ℕ → ℕ → ℂ) : ℕ → ℕ → ℂ :=
  fun e j => ∑ f ∈ Finset.range M, L e f * z f j

/-- Modelled from the spec: the bias auto-selection policy of the convolution
and fusion layers.  With `bias = none` (unspecified) a learnable bias is used
exactly when the produced output is unsigned; an explicit `some b` overrides
the policy. -/
def use_bias (signed_out : Bool) (bias : Option Bool) : Bool :=
  bias.getD (!signed_out)

/-- Learnable parameters of one `MagneticEdgeLaplacianConv`: the weight of the
linear edge-feature transform and a bias vector (applied only when the bias
policy allows it). -/
structure ConvParams where
  W : ℕ → ℕ → ℝ
  b : ℕ → ℝ

/-- Modelled from the spec (section 4.2): `MagneticEdgeLaplacianConv.forward`.
The input `[M × Cin]` edge signal is linearly transformed (no bias at this
stage), interpreted as complex by pairing adjacent columns, multiplied by the
Laplacian variant selected by `(signed_in, signed_out)`, unpaired back to a
real representation, and a bias is added only when `use_bias signed_out bias`
holds.  The class itself is not part of the available sources. -/
noncomputable def MagneticEdgeLaplacianConv_forward (p : ConvParams)
    (bias : Option Bool) (E : ℕ → ℕ × ℕ) (isDir : ℕ → Bool) (M N : ℕ) (q : ℝ)
    (Cin : ℕ) (signed_in signed_out : Bool) (x : ℕ → ℕ → ℝ) : ℕ → ℕ → ℝ :=
  fun e c =>
    view_as_real (opApply M (magnetic_edge_laplacian E isDir N q signed_in signed_out)
      (view_as_complex (linmap Cin p.W x))) e c +
    (if use_bias signed_out bias then p.b c else 0)

/-- Learnable parameters of one fusion layer: the two stream weights and a
bias vector (applied only in the unsigned-stream fusion). -/
structure FusionParams where
  W1 : ℕ → ℕ → ℝ
  W2 : ℕ → ℕ → ℝ
  b : ℕ → ℝ

/-- Modelled from the spec (section 4.4): the fusion layer combining the two
feature streams `xa` and `xb` of width `C`.  The spec licenses any
bilinear/gated combination; this development instantiates the linear form
`xa * W1 + xb * W2 (+ bias)`, with the bias present only in the unsigned
stream fusion, as the spec's bias policy requires.  The class itself is not
part of the available sources. -/
noncomputable def FusionLayer_forward (signedStream : Bool) (C : ℕ) (p : FusionParams)
    (xa xb : ℕ → ℕ → ℝ) : ℕ → ℕ → ℝ :=
  fun e c => (∑ i ∈ Finset.range C, xa e i * p.W1 i c) +
    (∑ i ∈ Finset.range C, xb e i * p.W2 i c) +
    (if signedStream then 0 else p.b c)

/-- Learnable parameters of one EIGN block: the four convolutions
(signed→signed, unsigned→signed, signed→unsigned, unsigned→unsigned), the two
residual linear projections (bias only on the unsigned one) and the two fusion
layers. -/
structure BlockParams where
  css : ConvParams
  cus : ConvParams
  csu : ConvParams
  cuu : ConvParams
  resS : ℕ → ℕ → ℝ
  resU : ℕ → ℕ → ℝ
  resUb : ℕ → ℝ
  fs : FusionParams
  fu : FusionParams

/-- Modelled from the spec (section 4.5):
`EIGNBlockMagneticEdgeLaplacianConv.forward`.  The four convolution outputs are
computed with the auto bias policy, the same-type convolution outputs are
residual-wrapped by a linear projection of the input (no bias on the signed
residual), and the two streams are fused.  The class itself is not part of the
available sources. -/
noncomputable def EIGNBlock_forward (p : BlockParams) (E : ℕ → ℕ × ℕ)
    (isDir : ℕ → Bool) (M N : ℕ) (q : ℝ) (Hs Hu : ℕ) (xs xu : ℕ → ℕ → ℝ) :
    (ℕ → ℕ → ℝ) × (ℕ → ℕ → ℝ) :=
  let yss := MagneticEdgeLaplacianConv_forward p.css none E isDir M N q Hs true true xs
  let yus := MagneticEdgeLaplacianConv_forward p.cus none E isDir M N q Hu false true xu
  let ysu := MagneticEdgeLaplacianConv_forward p.csu none E isDir M N q Hs true false xs
  let yuu := MagneticEdgeLaplacianConv_forward p.cuu none E isDir M N q Hu false false xu
  let rs : ℕ → ℕ → ℝ := fun e c => linmap Hs p.resS xs e c + yss e c
  let ru : ℕ → ℕ → ℝ := fun e c => (linmap Hu p.resU xu e c + p.resUb c) + yuu e c
  (FusionLayer_forward true Hs p.fs rs yus, FusionLayer_forward false Hu p.fu ru ysu)

/-- Output pair of the EIGN model: one real-valued signed stream and one
real-valued unsigned stream. -/
structure EIGNOutput where
  signed : ℕ → ℕ → ℝ
  unsigned : ℕ → ℕ → ℝ

/-- Learnable parameters of the EIGN model: the input heads (bias only on the
unsigned head), the blocks, and the output heads (bias only on the unsigned
head). -/
structure ModelParams where
  headS : ℕ → ℕ → ℝ
  headU : ℕ → ℕ → ℝ
  headUb : ℕ → ℝ
  blocks : List BlockParams
  outS : ℕ → ℕ → ℝ
  outU : ℕ → ℕ → ℝ
  outUb : ℕ → ℝ

/-- Modelled from the spec (section 4.6): `EIGNLaplacianConv.forward`.  The
two input streams are projected to the hidden widths, the blocks are applied
sequentially carrying `(x_signed, x_unsigned)` forward, and the output heads
project to the requested output widths.  Paths producing signed output carry
no bias.  The class itself is not part of the available sources. -/
noncomputable def EIGNLaplacianConv_forward (p : ModelParams) (E : ℕ → ℕ × ℕ)
    (isDir : ℕ → Bool) (M N : ℕ) (q : ℝ) (CsIn CuIn Hs Hu : ℕ)
    (xs xu : ℕ → ℕ → ℝ) : EIGNOutput :=
  let s0 := linmap CsIn p.headS xs
  let u0 : ℕ → ℕ → ℝ := fun e c => linmap CuIn p.headU xu e c + p.headUb c
  let h := p.blocks.foldl
    (fun st bp => EIGNBlock_forward bp E isDir M N q Hs Hu st.1 st.2) (s0, u0)
  ⟨linmap Hs p.outS h.1, fun e c => linmap Hu p.outU h.2 e c + p.outUb c⟩

/-- Complex row scaling by the sign vector of a flip. -/
noncomputable def scaleRowsC (S : ℕ → Bool) (z : ℕ → ℕ → ℂ) : ℕ → ℕ → ℂ :=
  fun e j => ((sgn S e : ℝ) : ℂ) * z e j

theorem magnetic_edge_laplacian_flip_ss (E : ℕ → ℕ × ℕ) (isDir : ℕ → Bool)
    (N : ℕ) (q : ℝ) (S : ℕ → Bool) (hS : ∀ e, S e = true → isDir e = false)
    (e f : ℕ) :
    magnetic_edge_laplacian (flipEdges S E) isDir N q true true e f =
      ((sgn S e : ℝ) : ℂ) * ((sgn S f : ℝ) : ℂ) *
        magnetic_edge_laplacian E isDir N q true true e f := by
  rw [magnetic_edge_laplacian_flip E isDir N q S hS true true e f, if_pos rfl,
    if_pos rfl]

theorem magnetic_edge_laplacian_flip_us (E : ℕ → ℕ × ℕ) (isDir : ℕ → Bool)
    (N : ℕ) (q : ℝ) (S : ℕ → Bool) (hS : ∀ e, S e = true → isDir e = false)
    (e f : ℕ) :
    magnetic_edge_laplacian (flipEdges S E) isDir N q false true e f =
      ((sgn S e : ℝ) : ℂ) * magnetic_edge_laplacian E isDir N q false true e f := by
  rw [magnetic_edge_laplacian_flip E isDir N q S hS false true e f, if_pos rfl,
    if_neg Bool.false_ne_true, mul_one]

theorem magnetic_edge_laplacian_flip_su (E : ℕ → ℕ × ℕ) (isDir : ℕ → Bool)
    (N : ℕ) (q : ℝ) (S : ℕ → Bool) (hS : ∀ e, S e = true → isDir e = false)
    (e f : ℕ) :
    magnetic_edge_laplacian (flipEdges S E) isDir N q true false e f =
      ((sgn S f : ℝ) : ℂ) * magnetic_edge_laplacian E isDir N q true false e f := by
  rw [magnetic_edge_laplacian_flip E isDir N q S hS true false e f,
    if_neg Bool.false_ne_true, if_pos rfl, one_mul]

theorem magnetic_edge_laplacian_flip_uu (E : ℕ → ℕ × ℕ) (isDir : ℕ → Bool)
    (N : ℕ) (q : ℝ) (S : ℕ → Bool) (hS : ∀ e, S e = true → isDir e = false)
    (e f : ℕ) :
    magnetic_edge_laplacian (flipEdges S E) isDir N q false false e f =
      magnetic_edge_laplacian E isDir N q false false e f := by
  rw [magnetic_edge_laplacian_flip E isDir N q S hS false false e f,
    if_neg Bool.false_ne_true, if_neg Bool.false_ne_true, one_mul, one_mul]

theorem linmap_negRows (Cin : ℕ) (W : ℕ → ℕ → ℝ) (S : ℕ → Bool) (x : ℕ → ℕ → ℝ) :
    linmap Cin W (negRows S x) = negRows S (linmap Cin W x) := by
  funext e c
  unfold linmap negRows
  rw [Finset.mul_sum]
  exact Finset.sum_congr rfl fun i _ => by ring

theorem view_as_complex_negRows (S : ℕ → Bool) (y : ℕ → ℕ → ℝ) :
    view_as_complex (negRows S y) = scaleRowsC S (view_as_complex y) := by
  funext e j
  unfold view_as_complex negRows scaleRowsC
  push_cast
  ring

theorem view_as_real_scaled (S : ℕ → Bool) (z : ℕ → ℕ → ℂ) :
    view_as_real (scaleRowsC S z) = negRows S (view_as_real z) := by
  funext e c
  unfold view_as_real scaleRowsC negRows
  by_cases h : c % 2 = 0
  · simp only [h, if_true, eq_self_iff_true]
    exact Complex.re_ofReal_mul _ _
  · simp only [h, if_false]
    exact Complex.im_ofReal_mul _ _

theorem sgnC_mul_self (S : ℕ → Bool) (f : ℕ) :
    ((sgn S f : ℝ) : ℂ) * ((sgn S f : ℝ) : ℂ) = 1 := by
  rw [← Complex.ofReal_mul, sgn_mul_self, Complex.ofReal_one]

theorem opApply_flip_ss (E : ℕ → ℕ × ℕ) (isDir : ℕ → Bool) (M N : ℕ) (q : ℝ)
    (S : ℕ → Bool) (hS : ∀ e, S e = true → isDir e = false) (z : ℕ → ℕ → ℂ) :
    opApply M (magnetic_edge_laplacian (flipEdges S E) isDir N q true true)
      (scaleRowsC S z) =
      scaleRowsC S (opApply M (magnetic_edge_laplacian E isDir N q true true) z) := by
  funext e j
  unfold opApply scaleRowsC
  rw [Finset.mul_sum]
  refine Finset.sum_congr rfl fun f _ => ?_
  rw [magnetic_edge_laplacian_flip_ss E isDir N q S hS e f]
  calc ((sgn S e : ℝ) : ℂ) * ((sgn S f : ℝ) : ℂ) *
        magnetic_edge_laplacian E isDir N q true true e f *
        (((sgn S f : ℝ) : ℂ) * z f j)
      = ((sgn S e : ℝ) : ℂ) *
        (magnetic_edge_laplacian E isDir N q true true e f * z f j) *
        (((sgn S f : ℝ) : ℂ) * ((sgn S f : ℝ) : ℂ)) := by ring
    _ = ((sgn S e : ℝ) : ℂ) *
        (magnetic_edge_laplacian E isDir N q true true e f * z f j) := by
        rw [sgnC_mul_self, mul_one]

theorem opApply_flip_us (E : ℕ → ℕ × ℕ) (isDir : ℕ → Bool) (M N : ℕ) (q : ℝ)
    (S : ℕ → Bool) (hS : ∀ e, S e = true → isDir e = false) (z : ℕ → ℕ → ℂ) :
    opApply M (magnetic_edge_laplacian (flipEdges S E) isDir N q false true) z =
      scaleRowsC S (opApply M (magnetic_edge_laplacian E isDir N q false true) z) := by
  funext e j
  unfold opApply scaleRowsC
  rw [Finset.mul_sum]
  refine Finset.sum_congr rfl fun f _ => ?_
  rw [magnetic_edge_laplacian_flip_us E isDir N q S hS e f]
  ring

theorem opApply_flip_su (E : ℕ → ℕ × ℕ) (isDir : ℕ → Bool) (M N : ℕ) (q : ℝ)
    (S : ℕ → Bool) (hS : ∀ e, S e = true → isDir e = false) (z : ℕ → ℕ → ℂ) :
    opApply M (magnetic_edge_laplacian (flipEdges S E) isDir N q true false)
      (scaleRowsC S z) =
      opApply M (magnetic_edge_laplacian E isDir N q true false) z := by
  funext e j
  unfold opApply scaleRowsC
  refine Finset.sum_congr rfl fun f _ => ?_
  rw [magnetic_edge_laplacian_flip_su E isDir N q S hS e f]
  calc ((sgn S f : ℝ) : ℂ) * magnetic_edge_laplacian E isDir N q true false e f *
        (((sgn S f : ℝ) : ℂ) * z f j)
      = magnetic_edge_laplacian E isDir N q true false e f * z f j *
        (((sgn S f : ℝ) : ℂ) * ((sgn S f : ℝ) : ℂ)) := by ring
    _ = magnetic_edge_laplacian E isDir N q true false e f * z f j := by
        rw [sgnC_mul_self, mul_one]

theorem opApply_flip_uu (E : ℕ → ℕ × ℕ) (isDir : ℕ → Bool) (M N : ℕ) (q : ℝ)
    (S : ℕ → Bool) (hS : ∀ e, S e = true → isDir e = false) (z : ℕ → ℕ → ℂ) :
    opApply M (magnetic_edge_laplacian (flipEdges S E) isDir N q false false) z =
      opApply M (magnetic_edge_laplacian E isDir N q false false) z := by
  funext e j
  unfold opApply
  refine Finset.sum_congr rfl fun f _ => ?_
  rw [magnetic_edge_laplacian_flip_uu E isDir N q S hS e f]

theorem conv_flip_ss (p : ConvParams) (E : ℕ → ℕ × ℕ) (isDir : ℕ → Bool)
    (M N : ℕ) (q : ℝ) (Cin : ℕ) (S : ℕ → Bool)
    (hS : ∀ e, S e = true → isDir e = false) (x : ℕ → ℕ → ℝ) :
    MagneticEdgeLaplacianConv_forward p none (flipEdges S E) isDir M N q Cin
      true true (negRows S x) =
      negRows S (MagneticEdgeLaplacianConv_forward p none E isDir M N q Cin
        true true x) := by
  funext e c
  unfold MagneticEdgeLaplacianConv_forward
  rw [linmap_negRows Cin p.W S x, view_as_complex_negRows,
    opApply_flip_ss E isDir M N q S hS, view_as_real_scaled]
  simp [negRows, use_bias]

theorem conv_flip_us (p : ConvParams) (E : ℕ → ℕ × ℕ) (isDir : ℕ → Bool)
    (M N : ℕ) (q : ℝ) (Cin : ℕ) (S : ℕ → Bool)
    (hS : ∀ e, S e = true → isDir e = false) (x : ℕ → ℕ → ℝ) :
    MagneticEdgeLaplacianConv_forward p none (flipEdges S E) isDir M N q Cin
      false true x =
      negRows S (MagneticEdgeLaplacianConv_forward p none E isDir M N q Cin
        false true x) := by
  funext e c
  unfold MagneticEdgeLaplacianConv_forward
  rw [opApply_flip_us E isDir M N q S hS, view_as_real_scaled]
  simp [negRows, use_bias]

theorem conv_flip_su (p : ConvParams) (E : ℕ → ℕ × ℕ) (isDir : ℕ → Bool)
    (M N : ℕ) (q : ℝ) (Cin : ℕ) (S : ℕ → Bool)
    (hS : ∀ e, S e = true → isDir e = false) (x : ℕ → ℕ → ℝ) :
    MagneticEdgeLaplacianConv_forward p none (flipEdges S E) isDir M N q Cin
      true false (negRows S x) =
      MagneticEdgeLaplacianConv_forward p none E isDir M N q Cin true false x := by
  funext e c
  unfold MagneticEdgeLaplacianConv_forward
  rw [linmap_negRows Cin p.W S x, view_as_complex_negRows,
    opApply_flip_su E isDir M N q S hS]

theorem conv_flip_uu (p : ConvParams) (E : ℕ → ℕ × ℕ) (isDir : ℕ → Bool)
    (M N : ℕ) (q : ℝ) (Cin : ℕ) (S : ℕ → Bool)
    (hS : ∀ e, S e = true → isDir e = false) (x : ℕ → ℕ → ℝ) :
    MagneticEdgeLaplacianConv_forward p none (flipEdges S E) isDir M N q Cin
      false false x =
      MagneticEdgeLaplacianConv_forward p none E isDir M N q Cin false false x := by
  funext e c
  unfold MagneticEdgeLaplacianConv_forward
  rw [opApply_flip_uu E isDir M N q S hS]

theorem FusionLayer_forward_signed_flip (C : ℕ) (p : FusionParams) (S : ℕ → Bool)
    (xa xb : ℕ → ℕ → ℝ) :
    FusionLayer_forward true C p (negRows S xa) (negRows S xb) =
      negRows S (FusionLayer_forward true C p xa xb) := by
  funext e c
  have h1 : ∑ i ∈ Finset.range C, sgn S e * xa e i * p.W1 i c =
      sgn S e * ∑ i ∈ Finset.range C, xa e i * p.W1 i c := by
    rw [Finset.mul_sum]; exact Finset.sum_congr rfl fun i _ => by ring
  have h2 : ∑ i ∈ Finset.range C, sgn S e * xb e i * p.W2 i c =
      sgn S e * ∑ i ∈ Finset.range C, xb e i * p.W2 i c := by
    rw [Finset.mul_sum]; exact Finset.sum_congr rfl fun i _ => by ring
  have hL : FusionLayer_forward true C p (negRows S xa) (negRows S xb) e c =
      ∑ i ∈ Finset.range C, sgn S e * xa e i * p.W1 i c +
        ∑ i ∈ Finset.range C, sgn S e * xb e i * p.W2 i c := by
    unfold FusionLayer_forward negRows
    rw [if_pos rfl, add_zero]
  have hR : FusionLayer_forward true C p xa xb e c =
      ∑ i ∈ Finset.range C, xa e i * p.W1 i c +
        ∑ i ∈ Finset.range C, xb e i * p.W2 i c := by
    unfold FusionLayer_forward
    rw [if_pos rfl, add_zero]
  show FusionLayer_forward true C p (negRows S xa) (negRows S xb) e c =
    sgn S e * FusionLayer_forward true C p xa xb e c
  rw [hL, hR, h1, h2, mul_add]

theorem negRows_add (S : ℕ → Bool) (f g : ℕ → ℕ → ℝ) :
    (fun e c => negRows S f e c + negRows S g e c) =
      negRows S (fun e c => f e c + g e c) := by
  funext e c
  unfold negRows
  rw [mul_add]

theorem EIGNBlock_forward_flip (p : BlockParams) (E : ℕ → ℕ × ℕ)
    (isDir : ℕ → Bool) (M N : ℕ) (q : ℝ) (Hs Hu : ℕ) (S : ℕ → Bool)
    (hS : ∀ e, S e = true → isDir e = false) (xs xu : ℕ → ℕ → ℝ) :
    EIGNBlock_forward p (flipEdges S E) isDir M N q Hs Hu (negRows S xs) xu =
      (negRows S (EIGNBlock_forward p E isDir M N q Hs Hu xs xu).1,
        (EIGNBlock_forward p E isDir M N q Hs Hu xs xu).2) := by
  simp only [EIGNBlock_forward]
  rw [conv_flip_ss p.css E isDir M N q Hs S hS xs,
    conv_flip_us p.cus E isDir M N q Hu S hS xu,
    conv_flip_su p.csu E isDir M N q Hs S hS xs,
    conv_flip_uu p.cuu E isDir M N q Hu S hS xu,
    linmap_negRows Hs p.resS S xs, negRows_add,
    FusionLayer_forward_signed_flip]

theorem blocks_foldl_flip (E : ℕ → ℕ × ℕ) (isDir : ℕ → Bool) (M N : ℕ) (q : ℝ)
    (Hs Hu : ℕ) (S : ℕ → Bool) (hS : ∀ e, S e = true → isDir e = false)
    (bps : List BlockParams) :
    ∀ (a b : ℕ → ℕ → ℝ),
      List.foldl (fun st bp =>
          EIGNBlock_forward bp (flipEdges S E) isDir M N q Hs Hu st.1 st.2)
        (negRows S a, b) bps =
      (negRows S (List.foldl (fun st bp =>
          EIGNBlock_forward bp E isDir M N q Hs Hu st.1 st.2) (a, b) bps).1,
        (List.foldl (fun st bp =>
          EIGNBlock_forward bp E isDir M N q Hs Hu st.1 st.2) (a, b) bps).2) := by
  induction bps with
  | nil => intro a b; rfl
  | cons bp bps ih =>
      intro a b
      simp only [List.foldl_cons]
      rw [EIGNBlock_forward_flip bp E isDir M N q Hs Hu S hS a b]
      exact ih _ _

/-- C1: Orientation equivariance of the signed stream.  For every graph
`(E, isDir)`, every subset `S` of undirected edges, and every pair of input
matrices, running the EIGN model on the graph with those edges' orientation
flipped (`edge_index` rows swapped for them) and the corresponding rows of the
signed input negated yields a signed output that, after negating the same rows
back, equals the signed output of the unflipped run. -/
theorem C1_signed_orientation_equivariance (p : ModelParams) (E : ℕ → ℕ × ℕ)
    (isDir : ℕ → Bool) (M N : ℕ) (q : ℝ) (CsIn CuIn Hs Hu : ℕ) (S : ℕ → Bool)
    (hS : ∀ e, S e = true → isDir e = false) (xs xu : ℕ → ℕ → ℝ) :
    negRows S ((EIGNLaplacianConv_forward p (flipEdges S E) isDir M N q
        CsIn CuIn Hs Hu (negRows S xs) xu).signed) =
      (EIGNLaplacianConv_forward p E isDir M N q CsIn CuIn Hs Hu xs xu).signed := by
  simp only [EIGNLaplacianConv_forward]
  rw [linmap_negRows CsIn p.headS S xs,
    blocks_foldl_flip E isDir M N q Hs Hu S hS p.blocks (linmap CsIn p.headS xs)
      (fun e c => linmap CuIn p.headU xu e c + p.headUb c)]
  simp only []
  rw [linmap_negRows Hs p.outS S, negRows_negRows]

/-- C2: Orientation invariance of the unsigned stream.  Flipping the listed
orientation of any subset of undirected edges (with the corresponding sign
flip applied to the signed input rows feeding the model) leaves the unsigned
output bit-for-bit identical to the unflipped run. -/
theorem C2_unsigned_orientation_invariance (p : ModelParams) (E : ℕ → ℕ × ℕ)
    (isDir : ℕ → Bool) (M N : ℕ) (q : ℝ) (CsIn CuIn Hs Hu : ℕ) (S : ℕ → Bool)
    (hS : ∀ e, S e = true → isDir e = false) (xs xu : ℕ → ℕ → ℝ) :
    (EIGNLaplacianConv_forward p (flipEdges S E) isDir M N q CsIn CuIn Hs Hu
        (negRows S xs) xu).unsigned =
      (EIGNLaplacianConv_forward p E isDir M N q CsIn CuIn Hs Hu xs xu).unsigned := by
  simp only [EIGNLaplacianConv_forward]
  rw [linmap_negRows CsIn p.headS S xs,
    blocks_foldl_flip E isDir M N q Hs Hu S hS p.blocks (linmap CsIn p.headS xs)
      (fun e c => linmap CuIn p.headU xu e c + p.headUb c)]

/-- Zero-initialised model parameters, used as a concrete instantiation. -/
noncomputable def zeroModelParams : ModelParams :=
  ⟨fun _ _ => 0, fun _ _ => 0, fun _ => 0, [], fun _ _ => 0, fun _ _ => 0, fun _ => 0⟩

/-- A concrete path graph on three nodes: edge `e` joins `e` and `e + 1`. -/
def pathGraphE (e : ℕ) : ℕ × ℕ := (e, e + 1)

/-- All-undirected directedness mask. -/
def allUndirected (_ : ℕ) : Bool := false

/-- Flip set selecting exactly edge `0`. -/
def flipZero (e : ℕ) : Bool := e == 0

theorem C1_signed_orientation_equivariance_witness :
    negRows flipZero ((EIGNLaplacianConv_forward zeroModelParams
        (flipEdges flipZero pathGraphE) allUndirected 2 3 (1 / 2) 1 1 2 2
        (negRows flipZero (fun _ _ => 1)) (fun _ _ => 1)).signed) =
      (EIGNLaplacianConv_forward zeroModelParams pathGraphE allUndirected 2 3
        (1 / 2) 1 1 2 2 (fun _ _ => 1) (fun _ _ => 1)).signed :=
  C1_signed_orientation_equivariance zeroModelParams pathGraphE allUndirected 2 3
    (1 / 2) 1 1 2 2 flipZero (fun _ _ => rfl) (fun _ _ => 1) (fun _ _ => 1)

theorem C2_unsigned_orientation_invariance_witness :
    (EIGNLaplacianConv_forward zeroModelParams (flipEdges flipZero pathGraphE)
        allUndirected 2 3 (1 / 2) 1 1 2 2
        (negRows flipZero (fun _ _ => 1)) (fun _ _ => 1)).unsigned =
      (EIGNLaplacianConv_forward zeroModelParams pathGraphE allUndirected 2 3
        (1 / 2) 1 1 2 2 (fun _ _ => 1) (fun _ _ => 1)).unsigned :=
  C2_unsigned_orientation_invariance zeroModelParams pathGraphE allUndirected 2 3
    (1 / 2) 1 1 2 2 flipZero (fun _ _ => rfl) (fun _ _ => 1) (fun _ _ => 1)

/-- The 6-node, 7-edge example graph used throughout the notebooks:
edges `(0,1), (1,2), (2,3), (2,4), (3,5), (5,0), (5,2)`. -/
def exampleE (e : ℕ) : ℕ × ℕ :=
  if e = 0 then (0, 1)
  else if e = 1 then (1, 2)
  else if e = 2 then (2, 3)
  else if e = 3 then (2, 4)
  else if e = 4 then (3, 5)
  else if e = 5 then (5, 0)
  else (5, 2)

/-- Directedness mask of the example graph: the last two edges (indices `5`
and `6`) are directed. -/
def exampleIsDir (e : ℕ) : Bool := decide (5 ≤ e)

/-- C4: scenario postcondition of the builder on the example graph.  With
`q = 1/7` and `signed_in = signed_out = true`, the returned `7 × 7` matrix is
Hermitian (`L i j` equals the complex conjugate of `L j i`), every diagonal
entry equals `2`, and the real part of every off-diagonal entry lies in
`[-1, 1]`. -/
theorem C4_example_laplacian_scenario :
    ∀ i j : Fin 7,
      (starRingEnd ℂ) (magnetic_edge_laplacian exampleE exampleIsDir 6 (1 / 7)
          true true (j : ℕ) (i : ℕ)) =
        magnetic_edge_laplacian exampleE exampleIsDir 6 (1 / 7) true true
          (i : ℕ) (j : ℕ) ∧
      magnetic_edge_laplacian exampleE exampleIsDir 6 (1 / 7) true true
        (i : ℕ) (i : ℕ) = 2 ∧
      ((i : ℕ) ≠ (j : ℕ) →
        -1 ≤ (magnetic_edge_laplacian exampleE exampleIsDir 6 (1 / 7) true true
          (i : ℕ) (j : ℕ)).re ∧
        (magnetic_edge_laplacian exampleE exampleIsDir 6 (1 / 7) true true
          (i : ℕ) (j : ℕ)).re ≤ 1) := by
  have hvalid : ∀ i : Fin 7, (exampleE (i : ℕ)).1 < 6 ∧ (exampleE (i : ℕ)).2 < 6 ∧
      (exampleE (i : ℕ)).1 ≠ (exampleE (i : ℕ)).2 := by decide
  have hshare : ∀ i j : Fin 7, (i : ℕ) ≠ (j : ℕ) →
      ((({(exampleE (i : ℕ)).1, (exampleE (i : ℕ)).2} : Finset ℕ) ∩
        {(exampleE (j : ℕ)).1, (exampleE (j : ℕ)).2})).card ≤ 1 := by decide
  intro i j
  refine ⟨magnetic_edge_laplacian_conj exampleE exampleIsDir 6 (1 / 7) true true
    (j : ℕ) (i : ℕ), ?_, ?_⟩
  · rw [magnetic_edge_laplacian_diag exampleE exampleIsDir 6 (1 / 7) true true
      (i : ℕ) (hvalid i).1 (hvalid i).2.1 (hvalid i).2.2]
    simp
  · intro hij
    have habs := abs_magnetic_edge_laplacian_le exampleE exampleIsDir 6 (1 / 7)
      true true (i : ℕ) (j : ℕ) (hvalid i).2.2 (hvalid j).2.2 (hshare i j hij)
    have hre : |(magnetic_edge_laplacian exampleE exampleIsDir 6 (1 / 7) true true
        (i : ℕ) (j : ℕ)).re| ≤ 1 :=
      le_trans (Complex.abs_re_le_abs _) habs
    exact abs_le.mp hre

theorem C4_example_laplacian_scenario_witness :
    ((0 : Fin 7) : ℕ) ≠ ((1 : Fin 7) : ℕ) ∧
    (-1 ≤ (magnetic_edge_laplacian exampleE exampleIsDir 6 (1 / 7) true true
        ((0 : Fin 7) : ℕ) ((1 : Fin 7) : ℕ)).re ∧
      (magnetic_edge_laplacian exampleE exampleIsDir 6 (1 / 7) true true
        ((0 : Fin 7) : ℕ) ((1 : Fin 7) : ℕ)).re ≤ 1) :=
  ⟨by decide, (C4_example_laplacian_scenario 0 1).2.2 (by decide)⟩

/-- Number of other edges sharing an endpoint with edge `e` (the incident-edge
count of `e`, its degree in the line-graph sense), among the `M` edges. -/
def line_graph_degree (E : ℕ → ℕ × ℕ) (M e : ℕ) : ℕ :=
  ((Finset.range M).filter (fun f => f ≠ e ∧
    ((E f).1 = (E e).1 ∨ (E f).1 = (E e).2 ∨
      (E f).2 = (E e).1 ∨ (E f).2 = (E e).2))).card

/-- C5 counterexample: on the example graph, edge `1 = (1, 2)` shares an
endpoint with four other edges, yet the diagonal entry of the signed-signed
magnetic edge Laplacian at `(1, 1)` is `2`, not `4`: diagonal entries do not
equal the incident-edge count in the line-graph sense. -/
theorem C5_diag_not_line_graph_degree :
    ¬ (magnetic_edge_laplacian exampleE exampleIsDir 6 (1 / 7) true true 1 1 =
        (line_graph_degree exampleE 7 1 : ℂ)) := by
  have hdiag : magnetic_edge_laplacian exampleE exampleIsDir 6 (1 / 7) true true 1 1 =
      2 := by
    rw [magnetic_edge_laplacian_diag exampleE exampleIsDir 6 (1 / 7) true true 1
      (by decide) (by decide) (by decide)]
    simp
  have hdeg : line_graph_degree exampleE 7 1 = 4 := by decide
  rw [hdiag, hdeg]
  norm_num

/-- C5 (amended): for every edge list, directedness mask and `q`, the diagonal
entry at `(e, e)` of the magnetic edge Laplacian of an edge with two distinct
valid endpoints equals `2` (one per endpoint) for the matched-signedness
variants and `0` for the mixed-signedness variants, independently of how many
edges share an endpoint with `e`. -/
theorem C5_amended_diag (E : ℕ → ℕ × ℕ) (isDir : ℕ → Bool) (N : ℕ) (q : ℝ)
    (e : ℕ) (hu : (E e).1 < N) (hv : (E e).2 < N) (hne : (E e).1 ≠ (E e).2) :
    magnetic_edge_laplacian E isDir N q true true e e = 2 ∧
    magnetic_edge_laplacian E isDir N q false false e e = 2 ∧
    magnetic_edge_laplacian E isDir N q true false e e = 0 ∧
    magnetic_edge_laplacian E isDir N q false true e e = 0 := by
  refine ⟨?_, ?_, ?_, ?_⟩ <;>
    rw [magnetic_edge_laplacian_diag E isDir N q _ _ e hu hv hne] <;> simp

theorem C5_amended_diag_witness :
    (exampleE 1).1 < 6 ∧ (exampleE 1).2 < 6 ∧ (exampleE 1).1 ≠ (exampleE 1).2 ∧
    (magnetic_edge_laplacian exampleE exampleIsDir 6 (1 / 7) true true 1 1 = 2 ∧
      magnetic_edge_laplacian exampleE exampleIsDir 6 (1 / 7) false false 1 1 = 2 ∧
      magnetic_edge_laplacian exampleE exampleIsDir 6 (1 / 7) true false 1 1 = 0 ∧
      magnetic_edge_laplacian exampleE exampleIsDir 6 (1 / 7) false true 1 1 = 0) :=
  ⟨by decide, by decide, by decide,
    C5_amended_diag exampleE exampleIsDir 6 (1 / 7) 1 (by decide) (by decide)
      (by decide)⟩

/-- C6: q = 0 reduction.  For every edge list and directedness mask, the
operators built with `q = 0` have phase factors exactly equal to `1`,
imaginary part exactly zero (both for the incidence matrix and for every
Laplacian variant), and the signed-in/signed-out Laplacian equals the
classical real edge Laplacian on the graph's line graph. -/
theorem C6_q_zero_reduction (E : ℕ → ℕ × ℕ) (isDir : ℕ → Bool) (N : ℕ)
    (s s' d : Bool) (n e f : ℕ) :
    phase 0 d = 1 ∧
    (magnetic_incidence_matrix E isDir 0 s n e).im = 0 ∧
    (magnetic_edge_laplacian E isDir N 0 s s' e f).im = 0 ∧
    magnetic_edge_laplacian E isDir N 0 true true e f =
      ((classical_edge_laplacian E N e f : ℝ) : ℂ) :=
  ⟨phase_zero d, magnetic_incidence_matrix_q_zero_im E isDir s n e,
    magnetic_edge_laplacian_q_zero_im E isDir N s s' e f,
    magnetic_edge_laplacian_q_zero_signed E isDir N e f⟩

/-- C7: bias policy.  With bias unspecified (`none`, the auto policy), any
path producing signed output carries no learnable bias: the signed-output
convolution and the signed-stream fusion layer are independent of their bias
parameters, while the unsigned-output convolution and the unsigned-stream
fusion add their bias vector.  Passing bias explicitly overrides the policy. -/
theorem C7_bias_policy :
    use_bias true none = false ∧
    use_bias false none = true ∧
    (∀ (s b : Bool), use_bias s (some b) = b) ∧
    (∀ (W : ℕ → ℕ → ℝ) (b b' : ℕ → ℝ) (E : ℕ → ℕ × ℕ) (isDir : ℕ → Bool)
        (M N : ℕ) (q : ℝ) (Cin : ℕ) (sIn : Bool) (x : ℕ → ℕ → ℝ),
      MagneticEdgeLaplacianConv_forward ⟨W, b⟩ none E isDir M N q Cin sIn true x =
        MagneticEdgeLaplacianConv_forward ⟨W, b'⟩ none E isDir M N q Cin sIn true x) ∧
    (∀ (W : ℕ → ℕ → ℝ) (b : ℕ → ℝ) (E : ℕ → ℕ × ℕ) (isDir : ℕ → Bool)
        (M N : ℕ) (q : ℝ) (Cin : ℕ) (sIn : Bool) (x : ℕ → ℕ → ℝ) (e c : ℕ),
      MagneticEdgeLaplacianConv_forward ⟨W, b⟩ none E isDir M N q Cin sIn false x e c =
        MagneticEdgeLaplacianConv_forward ⟨W, fun _ => 0⟩ none E isDir M N q Cin
          sIn false x e c + b c) ∧
    (∀ (W1 W2 : ℕ → ℕ → ℝ) (b b' : ℕ → ℝ) (C : ℕ) (xa xb : ℕ → ℕ → ℝ),
      FusionLayer_forward true C ⟨W1, W2, b⟩ xa xb =
        FusionLayer_forward true C ⟨W1, W2, b'⟩ xa xb) ∧
    (∀ (p : FusionParams) (C : ℕ) (xa xb : ℕ → ℕ → ℝ) (e c : ℕ),
      FusionLayer_forward false C p xa xb e c =
        FusionLayer_forward true C p xa xb e c + p.b c) := by
  refine ⟨rfl, rfl, fun s b => rfl, ?_, ?_, ?_, ?_⟩
  · intro W b b' E isDir M N q Cin sIn x
    funext e c
    unfold MagneticEdgeLaplacianConv_forward
    simp [use_bias]
  · intro W b E isDir M N q Cin sIn x e c
    unfold MagneticEdgeLaplacianConv_forward
    simp [use_bias]
  · intro W1 W2 b b' C xa xb
    funext e c
    unfold FusionLayer_forward
    simp
  · intro p C xa xb e c
    unfold FusionLayer_forward
    simp

/-- The module-boundary output of the EIGN model as a pair of shaped real
matrices `[M × Cout_signed]` and `[M × Cout_unsigned]`. -/
noncomputable def EIGNLaplacianConv_output (p : ModelParams) (E : ℕ → ℕ × ℕ)
    (isDir : ℕ → Bool) (M N : ℕ) (q : ℝ) (CsIn CuIn Hs Hu CsOut CuOut : ℕ)
    (xs xu : ℕ → ℕ → ℝ) :
    Matrix (Fin M) (Fin CsOut) ℝ × Matrix (Fin M) (Fin CuOut) ℝ :=
  (Matrix.of fun e c =>
      (EIGNLaplacianConv_forward p E isDir M N q CsIn CuIn Hs Hu xs xu).signed e c,
    Matrix.of fun e c =>
      (EIGNLaplacianConv_forward p E isDir M N q CsIn CuIn Hs Hu xs xu).unsigned e c)

/-- C8: output contract.  For every valid input the model returns a pair
`{signed, unsigned}` of real-valued matrices of shapes `M × Cout_signed` and
`M × Cout_unsigned` whose entries are exactly the signed and unsigned streams
of the forward pass; the complex intermediate state (which exists inside each
convolution before `view_as_real`) is not part of the module boundary, whose
value type is real. -/
theorem C8_output_contract (p : ModelParams) (E : ℕ → ℕ × ℕ) (isDir : ℕ → Bool)
    (M N : ℕ) (q : ℝ) (CsIn CuIn Hs Hu CsOut CuOut : ℕ) (xs xu : ℕ → ℕ → ℝ) :
    ∀ (e : Fin M) (cs : Fin CsOut) (cu : Fin CuOut),
      (EIGNLaplacianConv_output p E isDir M N q CsIn CuIn Hs Hu CsOut CuOut
          xs xu).1 e cs =
        (EIGNLaplacianConv_forward p E isDir M N q CsIn CuIn Hs Hu xs xu).signed
          (e : ℕ) (cs : ℕ) ∧
      (EIGNLaplacianConv_output p E isDir M N q CsIn CuIn Hs Hu CsOut CuOut
          xs xu).2 e cu =
        (EIGNLaplacianConv_forward p E isDir M N q CsIn CuIn Hs Hu xs xu).unsigned
          (e : ℕ) (cu : ℕ) :=
  fun _ _ _ => ⟨rfl, rfl⟩

/-- Modelled from the spec (section 7): Boolean shape/range validation of the
graph inputs: the `edge_index` and `is_directed` lengths match and every node
index lies in `[0, N)`. -/
def validGraph (E : List (ℕ × ℕ)) (D : List Bool) (N : ℕ) : Bool :=
  (E.length == D.length) && E.all fun pr => decide (pr.1 < N) && decide (pr.2 < N)

/-- Modelled from the spec (section 7): the builder entry point that fails
fast with a shape/range error on malformed input instead of producing a
result.  The concrete error propagation of the package is not part of the
available sources. -/
noncomputable def magnetic_edge_laplacian_checked (E : List (ℕ × ℕ))
    (D : List Bool) (N : ℕ) (q : ℝ) (sIn sOut : Bool) :
    Except String (ℕ → ℕ → ℂ) :=
  if validGraph E D N then
    Except.ok (magnetic_edge_laplacian (fun e => E.getD e (0, 0))
      (fun e => D.getD e false) N q sIn sOut)
  else Except.error "shape or range error"

/-- Modelled from the spec (section 7): the forward entry point with the same
fail-fast validation. -/
noncomputable def EIGNLaplacianConv_forward_checked (p : ModelParams)
    (E : List (ℕ × ℕ)) (D : List Bool) (N : ℕ) (q : ℝ) (CsIn CuIn Hs Hu : ℕ)
    (xs xu : ℕ → ℕ → ℝ) : Except String EIGNOutput :=
  if validGraph E D N then
    Except.ok (EIGNLaplacianConv_forward p (fun e => E.getD e (0, 0))
      (fun e => D.getD e false) E.length N q CsIn CuIn Hs Hu xs xu)
  else Except.error "shape or range error"

/-- C9: fail-fast error handling.  For every malformed input, namely an
`edge_index`/`is_directed` length mismatch or a node index out of the range
`[0, N)`, both the builder and the model forward pass raise a shape/range
error at call time instead of producing a result. -/
theorem C9_fail_fast (E : List (ℕ × ℕ)) (D : List Bool) (N : ℕ) (q : ℝ)
    (sIn sOut : Bool) (p : ModelParams) (CsIn CuIn Hs Hu : ℕ)
    (xs xu : ℕ → ℕ → ℝ)
    (hbad : E.length ≠ D.length ∨ ∃ pr ∈ E, N ≤ pr.1 ∨ N ≤ pr.2) :
    magnetic_edge_laplacian_checked E D N q sIn sOut =
      Except.error "shape or range error" ∧
    EIGNLaplacianConv_forward_checked p E D N q CsIn CuIn Hs Hu xs xu =
      Except.error "shape or range error" := by
  have hv : validGraph E D N = false := by
    rw [Bool.eq_false_iff]
    intro hvalid
    unfold validGraph at hvalid
    rw [Bool.and_eq_true, beq_iff_eq, List.all_eq_true] at hvalid
    rcases hbad with h | ⟨pr, hpr, hN⟩
    · exact h hvalid.1
    · have hmem := hvalid.2 pr hpr
      rw [Bool.and_eq_true, decide_eq_true_iff, decide_eq_true_iff] at hmem
      rcases hN with h1 | h2
      · exact absurd hmem.1 (not_lt.mpr h1)
      · exact absurd hmem.2 (not_lt.mpr h2)
  constructor <;>
    simp [magnetic_edge_laplacian_checked, EIGNLaplacianConv_forward_checked, hv]

theorem C9_fail_fast_witness :
    ([((0 : ℕ), (1 : ℕ))].length ≠ ([] : List Bool).length ∨
      ∃ pr ∈ [((0 : ℕ), (1 : ℕ))], 2 ≤ pr.1 ∨ 2 ≤ pr.2) ∧
    magnetic_edge_laplacian_checked [((0 : ℕ), (1 : ℕ))] [] 2 (1 / 7) true true =
      Except.error "shape or range error" ∧
    EIGNLaplacianConv_forward_checked zeroModelParams [((0 : ℕ), (1 : ℕ))] [] 2
      (1 / 7) 1 1 2 2 (fun _ _ => 1) (fun _ _ => 1) =
      Except.error "shape or range error" :=
  ⟨Or.inl (by decide),
    (C9_fail_fast [((0 : ℕ), (1 : ℕ))] [] 2 (1 / 7) true true zeroModelParams
      1 1 2 2 (fun _ _ => 1) (fun _ _ => 1) (Or.inl (by decide))).1,
    (C9_fail_fast [((0 : ℕ), (1 : ℕ))] [] 2 (1 / 7) true true zeroModelParams
      1 1 2 2 (fun _ _ => 1) (fun _ _ => 1) (Or.inl (by decide))).2⟩

/-- Modelled from the spec and the notebook pairing code: the
`reshape(-1, C/2, 2)` followed by `view_as_complex` step, which only has a
valid shape when the channel count `C` is even; on an odd `C` the reshape
fails instead of producing a result. -/
noncomputable def reshape_as_complex (C : ℕ) (y : ℕ → ℕ → ℝ) :
    Option (ℕ → ℕ → ℂ) :=
  if C % 2 = 0 then some (view_as_complex y) else none

/-- C10: implicit precondition of the complex pairing.  The channel count
must be even: on an odd count the pairing reshape fails (`none`), on an even
count it succeeds and the complex columns faithfully carry the real signal
(unpairing recovers every input column), and the reshape shape constraint
`2 * (C / 2) = C` holds exactly for even `C`. -/
theorem C10_pairing_requires_even (C : ℕ) (y : ℕ → ℕ → ℝ) :
    (C % 2 = 1 → reshape_as_complex C y = none) ∧
    (C % 2 = 0 → ∃ z, reshape_as_complex C y = some z ∧
      ∀ e c, c < C → view_as_real z e c = y e c) ∧
    (2 * (C / 2) = C ↔ C % 2 = 0) := by
  refine ⟨?_, ?_, ?_⟩
  · intro h
    unfold reshape_as_complex
    rw [if_neg]
    omega
  · intro h
    refine ⟨view_as_complex y, by unfold reshape_as_complex; rw [if_pos h], ?_⟩
    intro e c _
    unfold view_as_real view_as_complex
    by_cases hc : c % 2 = 0
    · have h2 : 2 * (c / 2) = c := by omega
      simp [hc, h2]
    · have h2 : 2 * (c / 2) + 1 = c := by omega
      simp [hc, h2]
  · constructor
    · intro h; omega
    · intro h; omega

theorem C10_pairing_requires_even_witness :
    reshape_as_complex 3 (fun _ _ => 1) = none ∧
    (2 * (4 / 2) = 4 ↔ 4 % 2 = 0) :=
  ⟨(C10_pairing_requires_even 3 (fun _ _ => 1)).1 rfl,
    (C10_pairing_requires_even 4 (fun _ _ => 1)).2.2⟩

theorem phase_quarter : phase (1 / 4) true = Complex.I := by
  unfold phase
  rw [if_pos rfl]
  have h : (2 * Real.pi * (1 / 4) : ℝ) = Real.pi / 2 := by ring
  rw [h, Complex.exp_mul_I, ← Complex.ofReal_cos, ← Complex.ofReal_sin,
    Real.cos_pi_div_two, Real.sin_pi_div_two]
  push_cast
  ring

theorem phase_quarter_inv : phase ((4 : ℝ))⁻¹ true = Complex.I := by
  rw [show ((4 : ℝ))⁻¹ = 1 / 4 from (one_div (4 : ℝ)).symm]
  exact phase_quarter

/-- Two-edge graph used for the directed-sensitivity instantiation: edge `0`
is the undirected edge `(0, 1)`, edge `1` is the directed edge `(1, 2)`. -/
def dirE (e : ℕ) : ℕ × ℕ := if e = 0 then (0, 1) else (1, 2)

/-- Directedness mask of `dirE`: only edge `1` is directed. -/
def dirIsDir (e : ℕ) : Bool := decide (e = 1)

/-- Flip set selecting the directed edge `1` of `dirE`. -/
def dirFlip (e : ℕ) : Bool := decide (e = 1)

/-- The `2 × 2` identity weight matrix. -/
noncomputable def id2 (i c : ℕ) : ℝ := if i = c then 1 else 0

/-- Concrete input signal: `1` at edge `1`, channel `0`, `0` elsewhere. -/
noncomputable def xC3 (e c : ℕ) : ℝ := if e = 1 ∧ c = 0 then 1 else 0

/-- Concrete model parameters routing the unsigned→signed convolution into
the signed output and the signed→unsigned convolution into the unsigned
output: identity heads, one block whose same-type convolutions, residual
projections and first fusion weights are zero. -/
noncomputable def pC3 : ModelParams :=
  ⟨id2, id2, fun _ => 0,
    [⟨⟨fun _ _ => 0, fun _ => 0⟩, ⟨id2, fun _ => 0⟩, ⟨id2, fun _ => 0⟩,
      ⟨fun _ _ => 0, fun _ => 0⟩, fun _ _ => 0, fun _ _ => 0, fun _ => 0,
      ⟨fun _ _ => 0, id2, fun _ => 0⟩, ⟨fun _ _ => 0, id2, fun _ => 0⟩⟩],
    id2, id2, fun _ => 0⟩

theorem lap_us_dirE : magnetic_edge_laplacian dirE dirIsDir 3 (1 / 4) false true
    0 1 = -Complex.I := by
  unfold magnetic_edge_laplacian
  rw [Finset.sum_range_succ, Finset.sum_range_succ, Finset.sum_range_succ,
    Finset.sum_range_zero]
  unfold magnetic_incidence_matrix dirE dirIsDir
  simp [phase_undirected, phase_quarter_inv, Complex.conj_I]

theorem lap_us_dirE_flipped :
    magnetic_edge_laplacian (flipEdges dirFlip dirE) dirIsDir 3 (1 / 4)
      false true 0 1 = Complex.I := by
  unfold magnetic_edge_laplacian
  rw [Finset.sum_range_succ, Finset.sum_range_succ, Finset.sum_range_succ,
    Finset.sum_range_zero]
  unfold magnetic_incidence_matrix flipEdges dirFlip dirE dirIsDir
  simp [phase_undirected, phase_quarter_inv, Complex.conj_I]

theorem lap_su_dirE : magnetic_edge_laplacian dirE dirIsDir 3 (1 / 4) true false
    0 1 = Complex.I := by
  unfold magnetic_edge_laplacian
  rw [Finset.sum_range_succ, Finset.sum_range_succ, Finset.sum_range_succ,
    Finset.sum_range_zero]
  unfold magnetic_incidence_matrix dirE dirIsDir
  simp [phase_undirected, phase_quarter_inv, Complex.conj_I]

theorem lap_su_dirE_flipped :
    magnetic_edge_laplacian (flipEdges dirFlip dirE) dirIsDir 3 (1 / 4)
      true false 0 1 = Complex.I := by
  unfold magnetic_edge_laplacian
  rw [Finset.sum_range_succ, Finset.sum_range_succ, Finset.sum_range_succ,
    Finset.sum_range_zero]
  unfold magnetic_incidence_matrix flipEdges dirFlip dirE dirIsDir
  simp [phase_undirected, phase_quarter_inv, Complex.conj_I]

theorem lap_us_dirE_inv : magnetic_edge_laplacian dirE dirIsDir 3 ((4 : ℝ))⁻¹
    false true 0 1 = -Complex.I := by
  rw [show ((4 : ℝ))⁻¹ = 1 / 4 from (one_div (4 : ℝ)).symm]
  exact lap_us_dirE

theorem lap_us_dirE_flipped_inv :
    magnetic_edge_laplacian (flipEdges dirFlip dirE) dirIsDir 3 ((4 : ℝ))⁻¹
      false true 0 1 = Complex.I := by
  rw [show ((4 : ℝ))⁻¹ = 1 / 4 from (one_div (4 : ℝ)).symm]
  exact lap_us_dirE_flipped

theorem lap_su_dirE_inv : magnetic_edge_laplacian dirE dirIsDir 3 ((4 : ℝ))⁻¹
    true false 0 1 = Complex.I := by
  rw [show ((4 : ℝ))⁻¹ = 1 / 4 from (one_div (4 : ℝ)).symm]
  exact lap_su_dirE

theorem lap_su_dirE_flipped_inv :
    magnetic_edge_laplacian (flipEdges dirFlip dirE) dirIsDir 3 ((4 : ℝ))⁻¹
      true false 0 1 = Complex.I := by
  rw [show ((4 : ℝ))⁻¹ = 1 / 4 from (one_div (4 : ℝ)).symm]
  exact lap_su_dirE_flipped

theorem eval_base_signed :
    (EIGNLaplacianConv_forward pC3 dirE dirIsDir 2 3 (1 / 4) 2 2 2 2
      xC3 xC3).signed 0 1 = -1 := by
  simp [EIGNLaplacianConv_forward, EIGNBlock_forward,
    MagneticEdgeLaplacianConv_forward, FusionLayer_forward, view_as_real,
    view_as_complex, opApply, linmap, use_bias, pC3, id2, xC3,
    Finset.sum_range_succ, Finset.sum_range_zero, lap_us_dirE_inv, lap_su_dirE_inv,
    List.foldl_cons, List.foldl_nil]

theorem eval_flip_signed :
    (EIGNLaplacianConv_forward pC3 (flipEdges dirFlip dirE) dirIsDir 2 3 (1 / 4)
      2 2 2 2 (negRows dirFlip xC3) xC3).signed 0 1 = 1 := by
  simp [EIGNLaplacianConv_forward, EIGNBlock_forward,
    MagneticEdgeLaplacianConv_forward, FusionLayer_forward, view_as_real,
    view_as_complex, opApply, linmap, use_bias, pC3, id2, xC3, negRows, sgn,
    dirFlip, Finset.sum_range_succ, Finset.sum_range_zero,
    lap_us_dirE_flipped_inv, lap_su_dirE_flipped_inv, List.foldl_cons,
    List.foldl_nil]

theorem eval_base_unsigned :
    (EIGNLaplacianConv_forward pC3 dirE dirIsDir 2 3 (1 / 4) 2 2 2 2
      xC3 xC3).unsigned 0 1 = 1 := by
  simp [EIGNLaplacianConv_forward, EIGNBlock_forward,
    MagneticEdgeLaplacianConv_forward, FusionLayer_forward, view_as_real,
    view_as_complex, opApply, linmap, use_bias, pC3, id2, xC3,
    Finset.sum_range_succ, Finset.sum_range_zero, lap_us_dirE_inv, lap_su_dirE_inv,
    List.foldl_cons, List.foldl_nil]

theorem eval_flip_unsigned :
    (EIGNLaplacianConv_forward pC3 (flipEdges dirFlip dirE) dirIsDir 2 3 (1 / 4)
      2 2 2 2 (negRows dirFlip xC3) xC3).unsigned 0 1 = -1 := by
  simp [EIGNLaplacianConv_forward, EIGNBlock_forward,
    MagneticEdgeLaplacianConv_forward, FusionLayer_forward, view_as_real,
    view_as_complex, opApply, linmap, use_bias, pC3, id2, xC3, negRows, sgn,
    dirFlip, Finset.sum_range_succ, Finset.sum_range_zero,
    lap_us_dirE_flipped_inv, lap_su_dirE_flipped_inv, List.foldl_cons,
    List.foldl_nil]

/-- C3: directed sensitivity.  The model is not invariant/equivariant under
flipping a directed edge's orientation: there are a graph, model parameters
and inputs (here the two-edge graph `dirE` with its directed edge `1` flipped
and the corresponding signed rows negated) for which both the signed output
(after re-negating the flipped rows) and the unsigned output differ from the
unflipped run by a non-zero amount. -/
theorem C3_directed_sensitivity :
    negRows dirFlip ((EIGNLaplacianConv_forward pC3 (flipEdges dirFlip dirE)
        dirIsDir 2 3 (1 / 4) 2 2 2 2 (negRows dirFlip xC3) xC3).signed) 0 1 ≠
      (EIGNLaplacianConv_forward pC3 dirE dirIsDir 2 3 (1 / 4) 2 2 2 2
        xC3 xC3).signed 0 1 ∧
    (EIGNLaplacianConv_forward pC3 (flipEdges dirFlip dirE) dirIsDir 2 3 (1 / 4)
        2 2 2 2 (negRows dirFlip xC3) xC3).unsigned 0 1 ≠
      (EIGNLaplacianConv_forward pC3 dirE dirIsDir 2 3 (1 / 4) 2 2 2 2
        xC3 xC3).unsigned 0 1 := by
  constructor
  · have h : negRows dirFlip ((EIGNLaplacianConv_forward pC3
        (flipEdges dirFlip dirE) dirIsDir 2 3 (1 / 4) 2 2 2 2
        (negRows dirFlip xC3) xC3).signed) 0 1 =
        (EIGNLaplacianConv_forward pC3 (flipEdges dirFlip dirE) dirIsDir 2 3
          (1 / 4) 2 2 2 2 (negRows dirFlip xC3) xC3).signed 0 1 := by
      unfold negRows sgn dirFlip
      norm_num
    rw [h, eval_flip_signed, eval_base_signed]
    norm_num
  · rw [eval_flip_unsigned, eval_base_unsigned]
    norm_num

end EIGN
